import Mathlib

/-!
# Verification of the Tic-Tac-Toe repository (392781/Tic-Tac-Toe)

Shallow embedding of the three Python source files:
* `tic_tac_toe.py`  — local game with `generate_moves`, `minimax`
  (alpha-beta), `heuristic`, `check_win`;
* `SOA_TTT.py`      — near-duplicate whose `minimax` cutoff lacks the
  empty-move-list test;
* `TTT_Client.py`   — networked client: same engine plus a line
  classifier and a receive loop.

Python boards are lists of the one-character strings `'x'`, `'o'`, `'e'`;
these are embedded as the enumeration `Cell`.  Python code compares board
cells both against such strings and (in `minimax`'s cutoff) against the
boolean `isX`; Python `==` between a string and a boolean is `False`, so
comparisons are made through the `PyVal` wrapper with Python equality
`pyEq`.  Python's `float('inf')` utilities are embedded as the extended
integers `XInt` (the heuristic is integer-valued).  Mutation of the board
list is embedded by threading the list through `minimax` explicitly: the
function returns the final state of its board argument alongside the
`(utility, best_move)` pair.
-/

/-- A board cell: the Python one-character strings `'x'`, `'o'`, `'e'`. -/
inductive Cell where
  | x : Cell
  | o : Cell
  | e : Cell
deriving DecidableEq, Repr

instance : Fintype Cell :=
  ⟨⟨{Cell.x, Cell.o, Cell.e}, by decide⟩, by intro a; cases a <;> decide⟩

/-- A Python value appearing in a comparison in this program: a cell
string or a boolean. -/
inductive PyVal where
  | s : Cell → PyVal
  | b : Bool → PyVal
deriving DecidableEq, Repr

/-- Python `==` on the values this program compares: strings compare by
contents, booleans by value, and a string never equals a boolean. -/
def pyEq : PyVal → PyVal → Bool
  | PyVal.s a, PyVal.s c => a == c
  | PyVal.b a, PyVal.b c => a == c
  | _, _ => false

/-- The board: Python `list` of 9 cells (indices 0–8, row-major). -/
abbrev Board := List Cell

/-- Embedding of Python's numeric line for the search utilities:
integers together with `float('-inf')` and `float('inf')`. -/
inductive XInt where
  | negInf : XInt
  | fin : Int → XInt
  | posInf : XInt
deriving DecidableEq, Repr

/-- Python `<` on `XInt` (total order with `-inf` at the bottom). -/
def xlt : XInt → XInt → Bool
  | XInt.negInf, XInt.negInf => false
  | XInt.negInf, _ => true
  | XInt.fin _, XInt.negInf => false
  | XInt.fin a, XInt.fin c => a < c
  | XInt.fin _, XInt.posInf => true
  | XInt.posInf, _ => false

/-- Python `<=` on `XInt`. -/
def xle (a c : XInt) : Bool := !(xlt c a)

/-- Python `max(a, c)` (returns `a` on ties; on `XInt` the value
determines the representative, so tie order is immaterial). -/
def xmax (a c : XInt) : XInt := if xlt a c then c else a

/-- Python `min(a, c)`. -/
def xmin (a c : XInt) : XInt := if xlt c a then c else a

/-- `check_win(board, player)` from `tic_tac_toe.py` lines 161–195 (the
same function appears in the other two files): tests the 8 fixed lines,
in the source's order, comparing each cell to `player` with Python
equality.  `player` is a `PyVal` because `minimax` passes the boolean
`isX` where the rest of the code passes a mark string. -/
def check_win (board : Board) (player : PyVal) : Bool :=
  let c : Nat → PyVal := fun i => PyVal.s (board.getD i Cell.e)
  (pyEq (c 0) player && pyEq (c 1) player && pyEq (c 2) player) ||
  (pyEq (c 3) player && pyEq (c 4) player && pyEq (c 5) player) ||
  (pyEq (c 6) player && pyEq (c 7) player && pyEq (c 8) player) ||
  (pyEq (c 0) player && pyEq (c 3) player && pyEq (c 6) player) ||
  (pyEq (c 1) player && pyEq (c 4) player && pyEq (c 7) player) ||
  (pyEq (c 2) player && pyEq (c 5) player && pyEq (c 8) player) ||
  (pyEq (c 0) player && pyEq (c 4) player && pyEq (c 8) player) ||
  (pyEq (c 6) player && pyEq (c 4) player && pyEq (c 2) player)

/-- `generate_moves(board)` from `tic_tac_toe.py` lines 5–31: the empty
list when either mark has a completed line, else the indices `0–8`
holding `'e'`, collected in ascending order. -/
def generate_moves (board : Board) : List Nat :=
  if check_win board (PyVal.s Cell.x) || check_win board (PyVal.s Cell.o) then []
  else (List.range 9).filter (fun i => board.getD i Cell.e == Cell.e)

/-- The pattern lists `_3row`, `_2row`, `_1row` of `heuristic`
(`tic_tac_toe.py` lines 130–132); the 3-character pattern strings over
`'x'`, `'o'`, `'e'` are embedded as 3-cell lists. -/
def _3row : List (List Cell) := [[Cell.x, Cell.x, Cell.x], [Cell.o, Cell.o, Cell.o]]

def _2row : List (List Cell) :=
  [[Cell.x, Cell.x, Cell.e], [Cell.e, Cell.x, Cell.x],
   [Cell.o, Cell.o, Cell.e], [Cell.e, Cell.o, Cell.o]]

def _1row : List (List Cell) :=
  [[Cell.x, Cell.e, Cell.e], [Cell.e, Cell.x, Cell.e], [Cell.e, Cell.e, Cell.x],
   [Cell.o, Cell.e, Cell.e], [Cell.e, Cell.o, Cell.e], [Cell.e, Cell.e, Cell.o]]

/-- `line_index` of `heuristic` (`tic_tac_toe.py` lines 134–136). -/
def line_index : List (List Nat) :=
  [[0, 1, 2], [3, 4, 5], [6, 7, 8],
   [2, 5, 8], [1, 4, 7], [0, 3, 6],
   [0, 4, 8], [2, 4, 6]]

/-- `heuristic(board)` from `tic_tac_toe.py` lines 107–158: for each of
the 8 lines build the pattern `tst_str` of its three cells and score it
by membership in `_3row` / `_2row` / `_1row`, positive when the pattern
contains an `'x'`. -/
def heuristic (board : Board) : Int :=
  line_index.foldl
    (fun score line =>
      let tst := line.map (fun i => board.getD i Cell.e)
      if tst ∈ _3row then
        (if 1 ≤ tst.count Cell.x then score + 100 else score - 100)
      else if tst ∈ _2row then
        (if 1 ≤ tst.count Cell.x then score + 10 else score - 10)
      else if tst ∈ _1row then
        (if 1 ≤ tst.count Cell.x then score + 1 else score - 1)
      else score)
    0

/-- The `for move in move_list` loop of `minimax`
(`tic_tac_toe.py` lines 84–104, identical in the other two files).
`recur` is the recursive call at the next depth.  Each iteration places
`player` at `move`, recurses on the mutated board, restores the cell to
`'e'`, then performs the strict-improvement update, the `alpha`/`beta`
update and the `alpha >= beta` break.  The board list is threaded
through and returned. -/
def mmLoop (recur : Board → XInt → XInt → Bool → (XInt × Int) × Board)
    (player : Cell) (isX : Bool) :
    List Nat → Board → XInt → XInt → XInt → Int → (XInt × Int) × Board
  | [], board, _alpha, _beta, utility, best_move => ((utility, best_move), board)
  | move :: rest, board, alpha, beta, utility, best_move =>
    let board1 := board.set move player
    let res := recur board1 alpha beta (!isX)
    let test_utility := res.1.1
    let board3 := res.2.set move Cell.e
    let pos : Int := Int.ofNat move
    if isX then
      let best_move2 := if xlt utility test_utility then pos else best_move
      let utility2 := if xlt utility test_utility then test_utility else utility
      let alpha2 := xmax utility2 alpha
      if xle beta alpha2 then ((utility2, best_move2), board3)
      else mmLoop recur player isX rest board3 alpha2 beta utility2 best_move2
    else
      let best_move2 := if xlt test_utility utility then pos else best_move
      let utility2 := if xlt test_utility utility then test_utility else utility
      let beta2 := xmin utility2 beta
      if xle beta2 alpha then ((utility2, best_move2), board3)
      else mmLoop recur player isX rest board3 alpha beta2 utility2 best_move2

/-- `minimax(board, depth, alpha, beta, isX)` from `tic_tac_toe.py`
lines 34–104 (same in `TTT_Client.py`): cutoff when `depth == 0`, or
`move_list` is empty, or `check_win(board, isX)` holds, returning
`(heuristic(board), -1)`; otherwise the alpha-beta loop over
`generate_moves(board)`.  Depth is a natural number (callers pass 100).
The final board state is returned alongside the result pair. -/
def minimax (depth : Nat) (board : Board) (alpha beta : XInt) (isX : Bool) :
    (XInt × Int) × Board :=
  match depth with
  | 0 => ((XInt.fin (heuristic board), -1), board)
  | d + 1 =>
    let move_list := generate_moves board
    let player := if isX then Cell.x else Cell.o
    let utility : XInt := if isX then XInt.negInf else XInt.posInf
    if move_list = [] ∨ check_win board (PyVal.b isX) = true then
      ((XInt.fin (heuristic board), -1), board)
    else
      mmLoop (fun bd a b s => minimax d bd a b s) player isX move_list board
        alpha beta utility (-1)

/-- `minimax` from `SOA_TTT.py` lines 28–60: identical loop, but the
cutoff is only `depth == 0 or check_win(board, isX)` — there is no
empty-move-list test, so a board with no legal moves at positive depth
falls through to the loop (which immediately returns the initial
`±inf` utility and the `-1` sentinel). -/
def minimaxSOA (depth : Nat) (board : Board) (alpha beta : XInt) (isX : Bool) :
    (XInt × Int) × Board :=
  match depth with
  | 0 => ((XInt.fin (heuristic board), -1), board)
  | d + 1 =>
    let player := if isX then Cell.x else Cell.o
    let utility : XInt := if isX then XInt.negInf else XInt.posInf
    if check_win board (PyVal.b isX) = true then
      ((XInt.fin (heuristic board), -1), board)
    else
      mmLoop (fun bd a b s => minimaxSOA d bd a b s) player isX
        (generate_moves board) board alpha beta utility (-1)

/-- The loop of the pruning-disabled search (see `minimaxNP`): the same
strict-improvement update and move ordering as `mmLoop`, with the
`alpha`/`beta` updates and the `alpha >= beta` break removed.  Without
mutation the board needs no threading: each recursion receives
`board.set move player` and the original board is reused afterwards. -/
def npLoop (recur : Board → Bool → XInt × Int) (player : Cell) (isX : Bool) :
    List Nat → Board → XInt → Int → XInt × Int
  | [], _board, utility, best_move => (utility, best_move)
  | move :: rest, board, utility, best_move =>
    let test_utility := (recur (board.set move player) (!isX)).1
    let pos : Int := Int.ofNat move
    if isX then
      let best_move2 := if xlt utility test_utility then pos else best_move
      let utility2 := if xlt utility test_utility then test_utility else utility
      npLoop recur player isX rest board utility2 best_move2
    else
      let best_move2 := if xlt test_utility utility then pos else best_move
      let utility2 := if xlt test_utility utility then test_utility else utility
      npLoop recur player isX rest board utility2 best_move2

/-- Modelled from the spec: the exhaustive minimax search "with pruning
disabled" against which §8 compares the pruned search — the
`tic_tac_toe.py` `minimax` with the `alpha`/`beta` parameters, their
updates and the `alpha >= beta` cut removed, everything else (cutoff
condition, move order, strict-improvement tie-break, heuristic at the
leaves) unchanged. -/
def minimaxNP (depth : Nat) (board : Board) (isX : Bool) : XInt × Int :=
  match depth with
  | 0 => (XInt.fin (heuristic board), -1)
  | d + 1 =>
    let move_list := generate_moves board
    let player := if isX then Cell.x else Cell.o
    let utility : XInt := if isX then XInt.negInf else XInt.posInf
    if move_list = [] ∨ check_win board (PyVal.b isX) = true then
      (XInt.fin (heuristic board), -1)
    else
      npLoop (fun bd s => minimaxNP d bd s) player isX move_list board utility (-1)

/-- The mark swap of the spec's antisymmetry property (§8): every `'x'`
becomes `'o'` and vice versa, `'e'` is unchanged. -/
def swapCell : Cell → Cell
  | Cell.x => Cell.o
  | Cell.o => Cell.x
  | Cell.e => Cell.e

/-- The contribution of one line pattern to `heuristic`'s score,
extracted from the `if`-chain of `tic_tac_toe.py` lines 143–157. -/
def lineDelta (tst : List Cell) : Int :=
  if tst ∈ _3row then (if 1 ≤ tst.count Cell.x then 100 else -100)
  else if tst ∈ _2row then (if 1 ≤ tst.count Cell.x then 10 else -10)
  else if tst ∈ _1row then (if 1 ≤ tst.count Cell.x then 1 else -1)
  else 0

/-- The per-line contribution as the amended claim states it: ±100 for
three equal marks; ±10 for two equal marks and an empty third **only**
in the mark-mark-empty and empty-mark-mark arrangements; ±1 for one
mark and two empties in any arrangement; 0 otherwise (in particular for
mixed-mark lines and for the mark-empty-mark arrangement). -/
def contrib (a b c : Cell) : Int :=
  if a = Cell.x ∧ b = Cell.x ∧ c = Cell.x then 100
  else if a = Cell.o ∧ b = Cell.o ∧ c = Cell.o then -100
  else if (a = Cell.x ∧ b = Cell.x ∧ c = Cell.e) ∨
          (a = Cell.e ∧ b = Cell.x ∧ c = Cell.x) then 10
  else if (a = Cell.o ∧ b = Cell.o ∧ c = Cell.e) ∨
          (a = Cell.e ∧ b = Cell.o ∧ c = Cell.o) then -10
  else if (a = Cell.x ∧ b = Cell.e ∧ c = Cell.e) ∨
          (a = Cell.e ∧ b = Cell.x ∧ c = Cell.e) ∨
          (a = Cell.e ∧ b = Cell.e ∧ c = Cell.x) then 1
  else if (a = Cell.o ∧ b = Cell.e ∧ c = Cell.e) ∨
          (a = Cell.e ∧ b = Cell.o ∧ c = Cell.e) ∨
          (a = Cell.e ∧ b = Cell.e ∧ c = Cell.o) then -1
  else 0

/-- The per-line contribution exactly as claim C3 states it: like
`contrib`, but with ±10 for **every** arrangement of two equal marks and
an empty third, including mark-empty-mark. -/
def contribClaimed (a b c : Cell) : Int :=
  if a = Cell.x ∧ b = Cell.x ∧ c = Cell.x then 100
  else if a = Cell.o ∧ b = Cell.o ∧ c = Cell.o then -100
  else if (a = Cell.x ∧ b = Cell.x ∧ c = Cell.e) ∨
          (a = Cell.x ∧ b = Cell.e ∧ c = Cell.x) ∨
          (a = Cell.e ∧ b = Cell.x ∧ c = Cell.x) then 10
  else if (a = Cell.o ∧ b = Cell.o ∧ c = Cell.e) ∨
          (a = Cell.o ∧ b = Cell.e ∧ c = Cell.o) ∨
          (a = Cell.e ∧ b = Cell.o ∧ c = Cell.o) then -10
  else if (a = Cell.x ∧ b = Cell.e ∧ c = Cell.e) ∨
          (a = Cell.e ∧ b = Cell.x ∧ c = Cell.e) ∨
          (a = Cell.e ∧ b = Cell.e ∧ c = Cell.x) then 1
  else if (a = Cell.o ∧ b = Cell.e ∧ c = Cell.e) ∨
          (a = Cell.e ∧ b = Cell.o ∧ c = Cell.e) ∨
          (a = Cell.e ∧ b = Cell.e ∧ c = Cell.o) then -1
  else 0

/-! ## The protocol client (`TTT_Client.py`) -/

/-- Python substring containment `needle in hay` on character lists
(the empty needle is contained in everything, as in Python). -/
def subStrIn (needle : List Char) : List Char → Bool
  | [] => needle.isEmpty
  | c :: rest => needle.isPrefixOf (c :: rest) || subStrIn needle rest

/-- The board-snapshot reinterpretation of a 9-character line
(`TTT_Client.py` lines 310–315): lowercase every character, then map the
digits `'1'`–`'9'` to `'e'`. -/
def snapshotCells (line : String) : List Char :=
  (line.toList.map Char.toLower).map
    (fun c => if ("123456789".toList).contains c then 'e' else c)

/-- The event a received line is classified into by the `elif` chain of
`TTT_Client.py` lines 307–360. -/
inductive ProtocolEvent where
  | boardSnapshot : List Char → ProtocolEvent
  | requestClientMove : ProtocolEvent
  | serverMoved : Nat → ProtocolEvent
  | gameOver : ProtocolEvent
  | disconnect : ProtocolEvent
  | serverError : ProtocolEvent
  | clientError : ProtocolEvent
deriving DecidableEq, Repr

/-- The first-match-wins line classifier of `TTT_Client.py` lines
307–360, rule for rule in the source's order.  For a server-move line
the position is Python `int(message_line[-1])`, the digit value of the
final character. -/
def classify (line : String) : ProtocolEvent :=
  if line.length = 9 ∧ subStrIn "Tie".toList line.toList = false then
    ProtocolEvent.boardSnapshot (snapshotCells line)
  else if subStrIn "Client".toList line.toList then
    ProtocolEvent.requestClientMove
  else if subStrIn "Server".toList line.toList then
    ProtocolEvent.serverMoved ((line.toList.getLastD '0').toNat - '0'.toNat)
  else if subStrIn "Win".toList line.toList || subStrIn "Tie".toList line.toList then
    ProtocolEvent.gameOver
  else if subStrIn "Disconnecting".toList line.toList then
    ProtocolEvent.disconnect
  else if subStrIn "Error".toList line.toList then
    ProtocolEvent.serverError
  else ProtocolEvent.clientError

/-- The board update a `ServerMoved` line performs
(`TTT_Client.py` lines 336–338): `board[pos - 1] = opp`.  Cells are kept
as characters on the client side, as in the source. -/
def applyServerMove (board : List Char) (pos : Nat) (opp : Char) : List Char :=
  board.set (pos - 1) opp

/-- The pop of `message_stack.pop(0)` plus the
`while (message_line is '')` skip of `TTT_Client.py` lines 297–299:
the first non-empty line and the remaining stack, or `none` when the
stack runs out (Python raises `IndexError`). -/
def popLine : List String → Option (String × List String)
  | [] => none
  | l :: rest => if l = "" then popLine rest else some (l, rest)

/-- Outcome of one pass through the line-popping phase of the client's
receive loop (`TTT_Client.py` lines 294–305). -/
inductive PopOutcome where
  /-- a line was popped and flows on to the state check -/
  | processed : String → List String → Nat → PopOutcome
  /-- `IndexError` path: `continue` is executed, skipping the state
  check; the first component records the value, if any, the dead
  `message_line = 'No longer receiving messages'` assignment stored
  before the `continue` -/
  | skipToNext : Option String → Nat → PopOutcome
deriving DecidableEq, Repr

/-- The line-popping phase of the receive loop, `TTT_Client.py` lines
294–305: on success the popped line is processed; on `IndexError` the
handler assigns the synthetic line only when `cont_counter > 4`, but
then unconditionally increments the counter and executes `continue`,
so the state check is skipped either way. -/
def recvPop (stack : List String) (cont_counter : Nat) : PopOutcome :=
  match popLine stack with
  | some (l, rest) => PopOutcome.processed l rest cont_counter
  | none =>
    PopOutcome.skipToNext
      (if 4 < cont_counter then some "No longer receiving messages" else none)
      (cont_counter + 1)

/-! ## Sample boards used as concrete inputs -/

/-- The empty board every game starts from. -/
def boardEmpty : Board := List.replicate 9 Cell.e

/-- A full drawn board (no line completed, no empty cell). -/
def boardFullDraw : Board :=
  [Cell.x, Cell.o, Cell.x, Cell.x, Cell.o, Cell.o, Cell.o, Cell.x, Cell.x]

/-- A board where `'o'` threatens to complete four different lines at
once, so every `'x'` reply leaves an immediate `'o'` win. -/
def boardQuadThreat : Board :=
  [Cell.o, Cell.o, Cell.e, Cell.o, Cell.o, Cell.e, Cell.e, Cell.e, Cell.e]

/-- A board whose top row holds the mark-empty-mark pattern `x e x`. -/
def boardSplitPair : Board :=
  [Cell.x, Cell.e, Cell.x, Cell.e, Cell.e, Cell.e, Cell.e, Cell.e, Cell.e]

/-- A near-full board with two empty cells and no completed line. -/
def boardTwoLeft : Board :=
  [Cell.x, Cell.o, Cell.x, Cell.o, Cell.x, Cell.o, Cell.e, Cell.e, Cell.o]

/-! ## Order lemmas for `XInt` -/

theorem xlt_irrefl (a : XInt) : xlt a a = false := by
  cases a <;> simp [xlt]

theorem xle_refl (a : XInt) : xle a a = true := by
  simp [xle, xlt_irrefl]

theorem xle_of_xlt {a b : XInt} (h : xlt a b = true) : xle a b = true := by
  cases a <;> cases b <;> simp_all [xlt, xle] <;> omega

theorem xle_false_iff {a b : XInt} : xle a b = false ↔ xlt b a = true := by
  simp [xle]

theorem xlt_trans {a b c : XInt} (h1 : xlt a b = true) (h2 : xlt b c = true) :
    xlt a c = true := by
  cases a <;> cases b <;> cases c <;> simp_all [xlt] <;> omega

theorem xlt_of_xlt_of_xle {a b c : XInt} (h1 : xlt a b = true)
    (h2 : xle b c = true) : xlt a c = true := by
  cases a <;> cases b <;> cases c <;> simp_all [xlt, xle] <;> omega

theorem xlt_of_xle_of_xlt {a b c : XInt} (h1 : xle a b = true)
    (h2 : xlt b c = true) : xlt a c = true := by
  cases a <;> cases b <;> cases c <;> simp_all [xlt, xle] <;> omega

theorem xle_trans {a b c : XInt} (h1 : xle a b = true) (h2 : xle b c = true) :
    xle a c = true := by
  cases a <;> cases b <;> cases c <;> simp_all [xlt, xle] <;> omega

theorem xle_antisymm {a b : XInt} (h1 : xle a b = true) (h2 : xle b a = true) :
    a = b := by
  cases a <;> cases b <;> simp_all [xlt, xle] <;> omega

theorem xle_negInf (a : XInt) : xle XInt.negInf a = true := by
  cases a <;> simp [xle, xlt]

theorem xle_posInf (a : XInt) : xle a XInt.posInf = true := by
  cases a <;> simp [xle, xlt]

theorem xlt_posInf {a : XInt} (h : a ≠ XInt.posInf) : xlt a XInt.posInf = true := by
  cases a <;> simp_all [xlt]

theorem negInf_xlt {a : XInt} (h : a ≠ XInt.negInf) : xlt XInt.negInf a = true := by
  cases a <;> simp_all [xlt]

theorem ne_negInf_of_xlt {a b : XInt} (h : xlt a b = true) : b ≠ XInt.negInf := by
  cases a <;> cases b <;> simp_all [xlt]

theorem ne_posInf_of_xlt {a b : XInt} (h : xlt a b = true) : a ≠ XInt.posInf := by
  cases a <;> cases b <;> simp_all [xlt]

theorem xmax_self (a : XInt) : xmax a a = a := by
  simp [xmax, xlt_irrefl]

theorem xmax_negInf (a : XInt) : xmax XInt.negInf a = a := by
  cases a <;> simp [xmax, xlt]

theorem xle_left_xmax (a b : XInt) : xle a (xmax a b) = true := by
  unfold xmax; split
  · exact xle_of_xlt ‹_›
  · exact xle_refl a

theorem xle_right_xmax (a b : XInt) : xle b (xmax a b) = true := by
  unfold xmax; split
  · exact xle_refl b
  · next h => simp [xle, Bool.of_not_eq_true h]

theorem xmax_xlt {a b c : XInt} (h1 : xlt a c = true) (h2 : xlt b c = true) :
    xlt (xmax a b) c = true := by
  unfold xmax; split <;> assumption

theorem xmax_eq_left {a b : XInt} (h : xle b a = true) : xmax a b = a := by
  unfold xmax; rw [xle] at h; cases hab : xlt a b
  · rfl
  · rw [hab] at h; simp at h

theorem xmax_collapse {a b c : XInt} (h : xle a b = true) :
    xmax b (xmax a c) = xmax b c := by
  by_cases hac : xlt a c = true
  · have h1 : xmax a c = c := by simp [xmax, hac]
    rw [h1]
  · have hf : xlt a c = false := by simpa using hac
    have h1 : xmax a c = a := by simp [xmax, hf]
    have hca : xle c a = true := by simp [xle, hf]
    rw [h1, xmax_eq_left h, xmax_eq_left (xle_trans hca h)]

theorem xmin_self (a : XInt) : xmin a a = a := by
  simp [xmin, xlt_irrefl]

theorem xmin_posInf (a : XInt) : xmin XInt.posInf a = a := by
  cases a <;> simp [xmin, xlt]

theorem xmin_xle_left (a b : XInt) : xle (xmin a b) a = true := by
  unfold xmin; split
  · exact xle_of_xlt ‹_›
  · exact xle_refl a

theorem xmin_xle_right (a b : XInt) : xle (xmin a b) b = true := by
  unfold xmin; split
  · exact xle_refl b
  · next h => simp [xle, Bool.of_not_eq_true h]

theorem xlt_xmin {a b c : XInt} (h1 : xlt c a = true) (h2 : xlt c b = true) :
    xlt c (xmin a b) = true := by
  unfold xmin; split <;> assumption

theorem xmin_eq_left {a b : XInt} (h : xle a b = true) : xmin a b = a := by
  unfold xmin; rw [xle] at h; cases hab : xlt b a
  · rfl
  · rw [hab] at h; simp at h

theorem xmin_collapse {a b c : XInt} (h : xle b a = true) :
    xmin b (xmin a c) = xmin b c := by
  by_cases hca : xlt c a = true
  · have h1 : xmin a c = c := by simp [xmin, hca]
    rw [h1]
  · have hf : xlt c a = false := by simpa using hca
    have h1 : xmin a c = a := by simp [xmin, hf]
    have hac : xle a c = true := by simp [xle, hf]
    rw [h1, xmin_eq_left h, xmin_eq_left (xle_trans h hac)]

/-! ## List helpers -/

theorem set_getD_self : ∀ (l : List Cell) (i : Nat),
    l.getD i Cell.e = Cell.e → l.set i Cell.e = l
  | [], _, _ => by simp
  | c :: t, 0, h => by simp_all [List.getD]
  | c :: t, i + 1, h => by
    simp only [List.set_cons_succ, List.cons.injEq, true_and]
    exact set_getD_self t i (by simpa [List.getD] using h)

theorem moves_cell_empty {board : Board} {m : Nat}
    (h : m ∈ generate_moves board) : board.getD m Cell.e = Cell.e := by
  unfold generate_moves at h
  split at h
  · simp at h
  · have := (List.mem_filter.mp h).2
    simpa using this

theorem moves_lt_nine {board : Board} {m : Nat}
    (h : m ∈ generate_moves board) : m < 9 := by
  unfold generate_moves at h
  split at h
  · simp at h
  · exact List.mem_range.mp (List.mem_filter.mp h).1

/-! ## The search never changes its board (frame property) -/

theorem mmLoop_board (recur : Board → XInt → XInt → Bool → (XInt × Int) × Board)
    (player : Cell) (isX : Bool)
    (hrec : ∀ bd a b s, (recur bd a b s).2 = bd) :
    ∀ (ms : List Nat) (board : Board) (alpha beta utility : XInt) (bm : Int),
    (∀ m ∈ ms, board.getD m Cell.e = Cell.e) →
    (mmLoop recur player isX ms board alpha beta utility bm).2 = board := by
  intro ms
  induction ms with
  | nil => intro board a b u bm _; rfl
  | cons m rest ih =>
    intro board a b u bm hpre
    have hb3 : (recur (board.set m player) a b (!isX)).2.set m Cell.e = board := by
      rw [hrec, List.set_set]
      exact set_getD_self board m (hpre m (by simp))
    have hrest : ∀ m' ∈ rest, board.getD m' Cell.e = Cell.e :=
      fun m' hm' => hpre m' (List.mem_cons_of_mem m hm')
    simp only [mmLoop]
    split <;> split <;> split <;>
      first
        | simpa using hb3
        | (rw [hb3]; exact ih board _ _ _ _ hrest)

theorem minimax_board :
    ∀ (d : Nat) (board : Board) (a b : XInt) (s : Bool),
      (minimax d board a b s).2 = board := by
  intro d
  induction d with
  | zero => intro board a b s; rfl
  | succ d ih =>
    intro board a b s
    simp only [minimax]
    split
    · rfl
    · exact mmLoop_board _ _ _ (fun bd a' b' s' => ih bd a' b' s') _ _ _ _ _ _
        (fun m hm => moves_cell_empty hm)

theorem minimaxSOA_board :
    ∀ (d : Nat) (board : Board) (a b : XInt) (s : Bool),
      (minimaxSOA d board a b s).2 = board := by
  intro d
  induction d with
  | zero => intro board a b s; rfl
  | succ d ih =>
    intro board a b s
    simp only [minimaxSOA]
    split
    · rfl
    · exact mmLoop_board _ _ _ (fun bd a' b' s' => ih bd a' b' s') _ _ _ _ _ _
        (fun m hm => moves_cell_empty hm)

/-- **C4.**  For every board, depth, alpha, beta and side, the minimax
search leaves the board it was given unchanged across the call boundary
(in both the `tic_tac_toe.py`/`TTT_Client.py` variant and the
`SOA_TTT.py` variant): the board returned with the result equals the
board passed in, cell for cell. -/
theorem minimax_preserves_input_board :
    ∀ (board : Board) (depth : Nat) (alpha beta : XInt) (isX : Bool),
      board.length = 9 →
      (minimax depth board alpha beta isX).2 = board ∧
      (minimaxSOA depth board alpha beta isX).2 = board := by
  intro board depth alpha beta isX _
  exact ⟨minimax_board depth board alpha beta isX,
         minimaxSOA_board depth board alpha beta isX⟩

/-- Witness for C4 at a concrete near-full board and depth 2. -/
theorem minimax_preserves_input_board_witness :
    (minimax 2 boardTwoLeft XInt.negInf XInt.posInf true).2 = boardTwoLeft ∧
    (minimaxSOA 2 boardTwoLeft XInt.negInf XInt.posInf true).2 = boardTwoLeft :=
  minimax_preserves_input_board boardTwoLeft 2 XInt.negInf XInt.posInf true (by rfl)

/-! ## `check_win` called with a boolean -/

theorem check_win_bool_false (board : Board) (isX : Bool) :
    check_win board (PyVal.b isX) = false := by
  simp [check_win, pyEq]

/-- **C10.**  `check_win(board, isX)` with the boolean `isX` in place of
a mark compares each cell string against a boolean, which is false under
Python equality, so it returns `False` for every board; consequently the
cutoff condition of `minimax` reduces to `depth == 0` or an empty move
list in the `tic_tac_toe.py` variant, and to `depth == 0` alone in the
`SOA_TTT.py` variant (whose cutoff lacks the move-list test). -/
theorem check_win_bool_conjunct_never_fires :
    ∀ (board : Board) (depth : Nat) (isX : Bool), board.length = 9 →
      check_win board (PyVal.b isX) = false ∧
      ((depth = 0 ∨ generate_moves board = [] ∨ check_win board (PyVal.b isX) = true) ↔
        (depth = 0 ∨ generate_moves board = [])) ∧
      ((depth = 0 ∨ check_win board (PyVal.b isX) = true) ↔ depth = 0) := by
  intro board depth isX _
  refine ⟨check_win_bool_false board isX, ?_, ?_⟩ <;>
    simp [check_win_bool_false]

/-- Witness for C10 at the empty board. -/
theorem check_win_bool_conjunct_never_fires_witness :
    check_win boardEmpty (PyVal.b true) = false :=
  (check_win_bool_conjunct_never_fires boardEmpty 0 true (by rfl)).1

/-! ## The move generator -/

/-- **C6.**  For every board in which neither mark has a completed line,
`generate_moves` returns exactly the indices of the `'e'` cells, in
ascending order; and for every board on which either mark has won it
returns the empty list even if empty cells remain. -/
theorem generate_moves_spec :
    ∀ (board : Board), board.length = 9 →
      ((check_win board (PyVal.s Cell.x) = false ∧
        check_win board (PyVal.s Cell.o) = false) →
        (∀ i : Nat, i ∈ generate_moves board ↔
          i < 9 ∧ board.getD i Cell.e = Cell.e) ∧
        List.Sorted (· < ·) (generate_moves board)) ∧
      ((check_win board (PyVal.s Cell.x) = true ∨
        check_win board (PyVal.s Cell.o) = true) →
        generate_moves board = []) := by
  intro board _
  constructor
  · rintro ⟨hx, ho⟩
    have hif : (check_win board (PyVal.s Cell.x) ||
        check_win board (PyVal.s Cell.o)) = false := by simp [hx, ho]
    constructor
    · intro i
      simp [generate_moves, hif, List.mem_filter, List.mem_range, and_comm]
    · show List.Pairwise (· < ·) (generate_moves board)
      simp only [generate_moves, hif, Bool.false_eq_true, if_false]
      exact (List.pairwise_lt_range 9).filter _
  · intro h
    have hif : (check_win board (PyVal.s Cell.x) ||
        check_win board (PyVal.s Cell.o)) = true := by
      rcases h with h | h <;> simp [h]
    simp [generate_moves, hif]

/-- Witness for C6 at the empty board. -/
theorem generate_moves_spec_witness :
    (4 ∈ generate_moves boardEmpty ↔
      4 < 9 ∧ boardEmpty.getD 4 Cell.e = Cell.e) ∧
    List.Sorted (· < ·) (generate_moves boardEmpty) :=
  ⟨(((generate_moves_spec boardEmpty (by rfl)).1 ⟨by rfl, by rfl⟩).1 4),
   ((generate_moves_spec boardEmpty (by rfl)).1 ⟨by rfl, by rfl⟩).2⟩

/-! ## Heuristic structure lemmas -/

theorem getD_map_swap : ∀ (l : List Cell) (i : Nat),
    (l.map swapCell).getD i Cell.e = swapCell (l.getD i Cell.e)
  | [], i => by cases i <;> simp [swapCell]
  | c :: t, 0 => by simp
  | c :: t, i + 1 => by simpa using getD_map_swap t i

theorem heuristic_step_eq (score : Int) (tst : List Cell) :
    (if tst ∈ _3row then
      (if 1 ≤ tst.count Cell.x then score + 100 else score - 100)
     else if tst ∈ _2row then
      (if 1 ≤ tst.count Cell.x then score + 10 else score - 10)
     else if tst ∈ _1row then
      (if 1 ≤ tst.count Cell.x then score + 1 else score - 1)
     else score) = score + lineDelta tst := by
  unfold lineDelta; split_ifs <;> omega

theorem heuristic_eq (board : Board) :
    heuristic board =
      lineDelta [board.getD 0 Cell.e, board.getD 1 Cell.e, board.getD 2 Cell.e] +
      lineDelta [board.getD 3 Cell.e, board.getD 4 Cell.e, board.getD 5 Cell.e] +
      lineDelta [board.getD 6 Cell.e, board.getD 7 Cell.e, board.getD 8 Cell.e] +
      lineDelta [board.getD 2 Cell.e, board.getD 5 Cell.e, board.getD 8 Cell.e] +
      lineDelta [board.getD 1 Cell.e, board.getD 4 Cell.e, board.getD 7 Cell.e] +
      lineDelta [board.getD 0 Cell.e, board.getD 3 Cell.e, board.getD 6 Cell.e] +
      lineDelta [board.getD 0 Cell.e, board.getD 4 Cell.e, board.getD 8 Cell.e] +
      lineDelta [board.getD 2 Cell.e, board.getD 4 Cell.e, board.getD 6 Cell.e] := by
  simp only [heuristic, line_index, List.foldl, List.map, heuristic_step_eq]
  omega

theorem lineDelta_swap (a b c : Cell) :
    lineDelta [swapCell a, swapCell b, swapCell c] = - lineDelta [a, b, c] := by
  revert a b c; decide

/-- **C9.**  The heuristic is antisymmetric under swapping marks: if
every `'x'` is replaced by `'o'` and vice versa, the score negates. -/
theorem heuristic_antisymmetric :
    ∀ board : Board, board.length = 9 →
      heuristic (board.map swapCell) = - heuristic board := by
  intro board _
  rw [heuristic_eq, heuristic_eq]
  simp only [getD_map_swap, lineDelta_swap]
  omega

/-- Witness for C9 at a board with a nonzero score. -/
theorem heuristic_antisymmetric_witness :
    heuristic (boardSplitPair.map swapCell) = - heuristic boardSplitPair :=
  heuristic_antisymmetric boardSplitPair (by rfl)

theorem lineDelta_eq_contrib (a b c : Cell) :
    lineDelta [a, b, c] = contrib a b c := by
  revert a b c; decide

/-- **C3 (amended).**  `heuristic(board)` is the sum over the 8 fixed
lines of a per-line contribution: ±100 for three equal marks, ±10 for
two equal marks with the empty third **only** in the mark-mark-empty
and empty-mark-mark arrangements listed in `_2row` (a mark-empty-mark
line contributes 0 — see the counterexample), ±1 for exactly one mark,
and 0 for every other pattern, mixed-mark lines included. -/
theorem heuristic_line_contributions :
    ∀ board : Board, board.length = 9 →
      heuristic board =
        contrib (board.getD 0 Cell.e) (board.getD 1 Cell.e) (board.getD 2 Cell.e) +
        contrib (board.getD 3 Cell.e) (board.getD 4 Cell.e) (board.getD 5 Cell.e) +
        contrib (board.getD 6 Cell.e) (board.getD 7 Cell.e) (board.getD 8 Cell.e) +
        contrib (board.getD 2 Cell.e) (board.getD 5 Cell.e) (board.getD 8 Cell.e) +
        contrib (board.getD 1 Cell.e) (board.getD 4 Cell.e) (board.getD 7 Cell.e) +
        contrib (board.getD 0 Cell.e) (board.getD 3 Cell.e) (board.getD 6 Cell.e) +
        contrib (board.getD 0 Cell.e) (board.getD 4 Cell.e) (board.getD 8 Cell.e) +
        contrib (board.getD 2 Cell.e) (board.getD 4 Cell.e) (board.getD 6 Cell.e) := by
  intro board _
  rw [heuristic_eq]
  simp only [lineDelta_eq_contrib]

/-- Witness for C3 at a concrete board. -/
theorem heuristic_line_contributions_witness :
    heuristic boardSplitPair =
      contrib (boardSplitPair.getD 0 Cell.e) (boardSplitPair.getD 1 Cell.e)
        (boardSplitPair.getD 2 Cell.e) +
      contrib (boardSplitPair.getD 3 Cell.e) (boardSplitPair.getD 4 Cell.e)
        (boardSplitPair.getD 5 Cell.e) +
      contrib (boardSplitPair.getD 6 Cell.e) (boardSplitPair.getD 7 Cell.e)
        (boardSplitPair.getD 8 Cell.e) +
      contrib (boardSplitPair.getD 2 Cell.e) (boardSplitPair.getD 5 Cell.e)
        (boardSplitPair.getD 8 Cell.e) +
      contrib (boardSplitPair.getD 1 Cell.e) (boardSplitPair.getD 4 Cell.e)
        (boardSplitPair.getD 7 Cell.e) +
      contrib (boardSplitPair.getD 0 Cell.e) (boardSplitPair.getD 3 Cell.e)
        (boardSplitPair.getD 6 Cell.e) +
      contrib (boardSplitPair.getD 0 Cell.e) (boardSplitPair.getD 4 Cell.e)
        (boardSplitPair.getD 8 Cell.e) +
      contrib (boardSplitPair.getD 2 Cell.e) (boardSplitPair.getD 4 Cell.e)
        (boardSplitPair.getD 6 Cell.e) :=
  heuristic_line_contributions boardSplitPair (by rfl)

/-- The per-line score claim C3 asserts, summed over the 8 lines. -/
def claimedScore (board : Board) : Int :=
  contribClaimed (board.getD 0 Cell.e) (board.getD 1 Cell.e) (board.getD 2 Cell.e) +
  contribClaimed (board.getD 3 Cell.e) (board.getD 4 Cell.e) (board.getD 5 Cell.e) +
  contribClaimed (board.getD 6 Cell.e) (board.getD 7 Cell.e) (board.getD 8 Cell.e) +
  contribClaimed (board.getD 2 Cell.e) (board.getD 5 Cell.e) (board.getD 8 Cell.e) +
  contribClaimed (board.getD 1 Cell.e) (board.getD 4 Cell.e) (board.getD 7 Cell.e) +
  contribClaimed (board.getD 0 Cell.e) (board.getD 3 Cell.e) (board.getD 6 Cell.e) +
  contribClaimed (board.getD 0 Cell.e) (board.getD 4 Cell.e) (board.getD 8 Cell.e) +
  contribClaimed (board.getD 2 Cell.e) (board.getD 4 Cell.e) (board.getD 6 Cell.e)

/-- Counterexample to C3 as stated: on the board whose top row is
`x e x`, the claim's ±10-for-mark-empty-mark rule predicts a total of
14, but `heuristic` scores the board 4 — the code's `_2row` list has no
mark-empty-mark patterns, so `x e x` falls through every pattern list
and contributes 0. -/
theorem heuristic_mark_empty_mark_counterexample :
    heuristic boardSplitPair = 4 ∧
    claimedScore boardSplitPair = 14 ∧
    decide (heuristic boardSplitPair = claimedScore boardSplitPair) = false :=
  ⟨by decide, by decide, by decide⟩

/-! ## Protocol client claims -/

/-- **C7.**  The client's line classifier, with its first-match-wins
precedence: the 9-character line `"123456x8o"` is a board snapshot with
`'e'` (Empty) at indices 0–5 and 7, `'x'` at 6 and `'o'` at 8; a line
containing `"Client"` that does not match the earlier board-snapshot
rule (9 characters without `"Tie"`) is a request for a client move;
`"Server moved to 5"` is a server move at 1-based cell 5, and applying
it places the opponent's mark at index 4; and a line matching no rule,
such as `"garbage"`, is a fatal client-side protocol error. -/
theorem classify_protocol_lines :
    classify "123456x8o" =
      ProtocolEvent.boardSnapshot ['e', 'e', 'e', 'e', 'e', 'e', 'x', 'e', 'o'] ∧
    (∀ line : String, subStrIn "Client".toList line.toList = true →
      (line.length = 9 → subStrIn "Tie".toList line.toList = true) →
      classify line = ProtocolEvent.requestClientMove) ∧
    (classify "Server moved to 5" = ProtocolEvent.serverMoved 5 ∧
      ∀ (board : List Char) (opp : Char),
        applyServerMove board 5 opp = board.set 4 opp) ∧
    classify "garbage" = ProtocolEvent.clientError := by
  refine ⟨by decide, ?_, ⟨by decide, fun board opp => rfl⟩, by decide⟩
  intro line hcl hnot9
  unfold classify
  rw [if_neg, if_pos hcl]
  rintro ⟨h9, htie⟩
  rw [hnot9 h9] at htie
  cases htie

/-- Witness for C7's client-move rule at a concrete line. -/
theorem classify_protocol_lines_witness :
    classify "Client, your move:" = ProtocolEvent.requestClientMove :=
  classify_protocol_lines.2.1 "Client, your move:" (by decide) (by decide)

/-- **C8** concerns `TTT_Client.py` lines 294–305.  The spec says that
after more than a small bounded number of consecutive empty reads the
loop processes a synthetic "no data" line instead of skipping to the
next iteration.  The code does assign
`message_line = 'No longer receiving messages'` once `cont_counter > 4`,
but the `continue` that follows runs unconditionally, so the synthetic
line never reaches the state check: with an empty buffer the iteration
always ends in `continue`, at every counter value. -/
theorem recv_loop_starvation_skips :
    recvPop [] 5 =
      PopOutcome.skipToNext (some "No longer receiving messages") 6 ∧
    (∀ cont : Nat, ∃ m : Option String,
      recvPop [] cont = PopOutcome.skipToNext m (cont + 1)) :=
  ⟨by decide, fun cont => ⟨_, rfl⟩⟩

/-! ## Result-shape lemmas for the search loop -/

theorem gen_moves_empty_of_win {board : Board}
    (h : check_win board (PyVal.s Cell.x) = true ∨
         check_win board (PyVal.s Cell.o) = true) :
    generate_moves board = [] := by
  have hif : (check_win board (PyVal.s Cell.x) ||
      check_win board (PyVal.s Cell.o)) = true := by
    rcases h with h | h <;> simp [h]
  simp [generate_moves, hif]

theorem mmLoop_keeps_good
    (recur : Board → XInt → XInt → Bool → (XInt × Int) × Board)
    (player : Cell) (isX : Bool)
    (hrec : ∀ bd a b s, ∃ n : Int, (recur bd a b s).1.1 = XInt.fin n) :
    ∀ (ms : List Nat) (board : Board) (a b u : XInt) (bm : Int),
      (∀ m ∈ ms, m < 9) →
      (∃ k : Int, ∃ m0 : Nat, u = XInt.fin k ∧ bm = Int.ofNat m0 ∧ m0 < 9) →
      ∃ n : Int, ∃ mv : Nat,
        (mmLoop recur player isX ms board a b u bm).1 = (XInt.fin n, Int.ofNat mv) ∧
        mv < 9 := by
  intro ms
  induction ms with
  | nil =>
    intro board a b u bm _ hstate
    obtain ⟨k, m0, hu, hbm, hm0⟩ := hstate
    exact ⟨k, m0, by simp [mmLoop, hu, hbm], hm0⟩
  | cons m rest ih =>
    intro board a b u bm hlt hstate
    obtain ⟨k, m0, hu, hbm, hm0⟩ := hstate
    obtain ⟨t, ht⟩ := hrec (board.set m player) a b (!isX)
    have hm9 : m < 9 := hlt m (by simp)
    have hrest : ∀ m' ∈ rest, m' < 9 := fun m' h' => hlt m' (by simp [h'])
    subst hu hbm
    cases isX with
    | true =>
      simp only [mmLoop, ht, if_true]
      by_cases hcmp : xlt (XInt.fin k) (XInt.fin t) = true
      · simp only [hcmp, if_true]
        split
        · exact ⟨t, m, rfl, hm9⟩
        · exact ih _ _ _ _ _ hrest ⟨t, m, rfl, rfl, hm9⟩
      · simp only [Bool.of_not_eq_true hcmp, Bool.false_eq_true, if_false]
        split
        · exact ⟨k, m0, rfl, hm0⟩
        · exact ih _ _ _ _ _ hrest ⟨k, m0, rfl, rfl, hm0⟩
    | false =>
      simp only [mmLoop, ht, Bool.false_eq_true, if_false]
      by_cases hcmp : xlt (XInt.fin t) (XInt.fin k) = true
      · simp only [hcmp, if_true]
        split
        · exact ⟨t, m, rfl, hm9⟩
        · exact ih _ _ _ _ _ hrest ⟨t, m, rfl, rfl, hm9⟩
      · simp only [Bool.of_not_eq_true hcmp, Bool.false_eq_true, if_false]
        split
        · exact ⟨k, m0, rfl, hm0⟩
        · exact ih _ _ _ _ _ hrest ⟨k, m0, rfl, rfl, hm0⟩

theorem mmLoop_good_start
    (recur : Board → XInt → XInt → Bool → (XInt × Int) × Board)
    (player : Cell) (isX : Bool)
    (hrec : ∀ bd a b s, ∃ n : Int, (recur bd a b s).1.1 = XInt.fin n) :
    ∀ (m : Nat) (rest : List Nat) (board : Board) (a b : XInt),
      (∀ m' ∈ m :: rest, m' < 9) →
      ∃ n : Int, ∃ mv : Nat,
        (mmLoop recur player isX (m :: rest) board a b
            (if isX then XInt.negInf else XInt.posInf) (-1)).1 =
          (XInt.fin n, Int.ofNat mv) ∧ mv < 9 := by
  intro m rest board a b hlt
  obtain ⟨t, ht⟩ := hrec (board.set m player) a b (!isX)
  have hm9 : m < 9 := hlt m (by simp)
  have hrest : ∀ m' ∈ rest, m' < 9 := fun m' h' => hlt m' (by simp [h'])
  cases isX with
  | true =>
    have hcmp : xlt XInt.negInf (XInt.fin t) = true := by simp [xlt]
    simp only [mmLoop, ht, if_true, hcmp]
    split
    · exact ⟨t, m, rfl, hm9⟩
    · exact mmLoop_keeps_good recur player true hrec _ _ _ _ _ _ hrest
        ⟨t, m, rfl, rfl, hm9⟩
  | false =>
    have hcmp : xlt (XInt.fin t) XInt.posInf = true := by simp [xlt]
    simp only [mmLoop, ht, Bool.false_eq_true, if_false, hcmp, if_true]
    split
    · exact ⟨t, m, rfl, hm9⟩
    · exact mmLoop_keeps_good recur player false hrec _ _ _ _ _ _ hrest
        ⟨t, m, rfl, rfl, hm9⟩

/-- Every `tic_tac_toe.py` `minimax` call returns a finite utility: the
cutoff returns the (integer) heuristic, and the loop always performs at
least one strict-improvement update before it can break. -/
theorem minimax_fin :
    ∀ (d : Nat) (board : Board) (a b : XInt) (s : Bool),
      ∃ n : Int, (minimax d board a b s).1.1 = XInt.fin n := by
  intro d
  induction d with
  | zero => intro board a b s; exact ⟨heuristic board, rfl⟩
  | succ d ih =>
    intro board a b s
    simp only [minimax]
    split
    · exact ⟨heuristic board, rfl⟩
    · next hcut =>
      have hne : generate_moves board ≠ [] := fun h => hcut (Or.inl h)
      obtain ⟨m, rest, hms⟩ : ∃ m rest, generate_moves board = m :: rest := by
        cases hgm : generate_moves board with
        | nil => exact absurd hgm hne
        | cons m rest => exact ⟨m, rest, rfl⟩
      rw [hms]
      obtain ⟨n, mv, hres, _⟩ := mmLoop_good_start _ _ s
        (fun bd a' b' s' => ih bd a' b' s') m rest board a b
        (fun m' h' => moves_lt_nine (hms ▸ h' : m' ∈ generate_moves board))
      exact ⟨n, by rw [hres]⟩

/-- Every `tic_tac_toe.py` `minimax` call at positive depth with a
non-empty move list returns a finite utility and a move in `[0,8]`. -/
theorem minimax_good :
    ∀ (d : Nat) (board : Board) (a b : XInt) (s : Bool),
      d ≠ 0 → generate_moves board ≠ [] →
      ∃ n : Int, ∃ mv : Nat,
        (minimax d board a b s).1 = (XInt.fin n, Int.ofNat mv) ∧ mv < 9 := by
  intro d board a b s hd hne
  cases d with
  | zero => exact absurd rfl hd
  | succ d =>
    simp only [minimax]
    rw [if_neg]
    · obtain ⟨m, rest, hms⟩ : ∃ m rest, generate_moves board = m :: rest := by
        cases hgm : generate_moves board with
        | nil => exact absurd hgm hne
        | cons m rest => exact ⟨m, rest, rfl⟩
      rw [hms]
      exact mmLoop_good_start _ _ s
        (fun bd a' b' s' => minimax_fin d bd a' b' s') m rest board a b
        (fun m' h' => moves_lt_nine (hms ▸ h' : m' ∈ generate_moves board))
    · rintro (h | h)
      · exact hne h
      · rw [check_win_bool_false] at h; cases h

/-- In the loop, the best move and the utility are updated together: as
long as the best move is still the `-1` sentinel, the utility is still
the initial `±inf` bound.  (Generic in the recursive call, so it also
covers the `SOA_TTT.py` variant.) -/
theorem mmLoop_sentinel
    (recur : Board → XInt → XInt → Bool → (XInt × Int) × Board)
    (player : Cell) (isX : Bool) :
    ∀ (ms : List Nat) (board : Board) (a b u : XInt) (bm : Int),
      (bm = -1 → u = (if isX then XInt.negInf else XInt.posInf)) →
      ((mmLoop recur player isX ms board a b u bm).1.2 = -1 →
        (mmLoop recur player isX ms board a b u bm).1.1 =
          (if isX then XInt.negInf else XInt.posInf)) := by
  intro ms
  induction ms with
  | nil => intro board a b u bm hinv; exact hinv
  | cons m rest ih =>
    intro board a b u bm hinv
    have hofNat : (Int.ofNat m = -1 → False) := fun h => by
      rw [Int.ofNat_eq_natCast] at h; omega
    cases isX with
    | true =>
      simp only [mmLoop, Bool.not_true, if_true]
      by_cases hcmp : xlt u (recur (board.set m player) a b false).1.1 = true
      · simp only [hcmp, if_true]
        split
        · exact fun h => absurd h hofNat
        · exact ih _ _ _ _ _ (fun h => absurd h hofNat)
      · simp only [Bool.of_not_eq_true hcmp, Bool.false_eq_true, if_false]
        split
        · exact hinv
        · exact ih _ _ _ _ _ hinv
    | false =>
      simp only [mmLoop, Bool.not_false, Bool.false_eq_true, if_false]
      by_cases hcmp : xlt (recur (board.set m player) a b true).1.1 u = true
      · simp only [hcmp, if_true]
        split
        · exact fun h => absurd h hofNat
        · exact ih _ _ _ _ _ (fun h => absurd h hofNat)
      · simp only [Bool.of_not_eq_true hcmp, Bool.false_eq_true, if_false]
        split
        · exact hinv
        · exact ih _ _ _ _ _ hinv

/-- **C1 (amended).**  In the `tic_tac_toe.py`/`TTT_Client.py` variant,
the search returns `(heuristic(board), -1)` exactly when `depth == 0`,
or the side that just moved has already won, or the board has no legal
moves (the win case is subsumed by the empty move list, and the
`check_win(board, isX)` conjunct itself never fires).  In the
`SOA_TTT.py` variant the cutoff is `depth == 0` alone: a board with no
legal moves at positive depth returns `(±inf, -1)` instead of the
heuristic (see the counterexample). -/
theorem minimax_cutoff_return_characterization :
    (∀ (board : Board) (depth : Nat) (alpha beta : XInt) (isX : Bool),
      board.length = 9 →
      ((minimax depth board alpha beta isX).1 =
          (XInt.fin (heuristic board), -1) ↔
        (depth = 0 ∨
          check_win board (PyVal.s (if isX then Cell.o else Cell.x)) = true ∨
          generate_moves board = []))) ∧
    (∀ (board : Board) (depth : Nat) (alpha beta : XInt) (isX : Bool),
      board.length = 9 →
      ((minimaxSOA depth board alpha beta isX).1 =
          (XInt.fin (heuristic board), -1) ↔ depth = 0)) := by
  constructor
  · intro board depth a b isX _
    constructor
    · intro hres
      by_contra hrhs
      push_neg at hrhs
      obtain ⟨hd, _, hm⟩ := hrhs
      obtain ⟨n, mv, hgood, _⟩ := minimax_good depth board a b isX hd hm
      rw [hres] at hgood
      injection hgood with h1 h2
      rw [Int.ofNat_eq_natCast] at h2
      omega
    · intro hrhs
      have hcut : depth = 0 ∨ generate_moves board = [] := by
        rcases hrhs with h | h | h
        · exact Or.inl h
        · refine Or.inr (gen_moves_empty_of_win ?_)
          cases isX <;> simp at h <;> simp [h]
        · exact Or.inr h
      rcases hcut with rfl | hm
      · rfl
      · cases depth with
        | zero => rfl
        | succ d => simp only [minimax]; rw [if_pos (Or.inl hm)]
  · intro board depth a b isX _
    constructor
    · intro hres
      cases depth with
      | zero => rfl
      | succ d =>
        exfalso
        simp only [minimaxSOA] at hres
        rw [if_neg (by simp [check_win_bool_false])] at hres
        have h2 := congrArg Prod.snd hres
        have h1 := congrArg Prod.fst hres
        simp only at h1 h2
        have := mmLoop_sentinel (fun bd a' b' s' => minimaxSOA d bd a' b' s')
          (if isX then Cell.x else Cell.o) isX (generate_moves board) board a b
          (if isX then XInt.negInf else XInt.posInf) (-1) (fun _ => rfl) h2
        rw [h1] at this
        cases isX <;> simp at this
    · rintro rfl; rfl

/-- Witness for C1: the cutoff equivalence applied at depth 0 on the
empty board. -/
theorem minimax_cutoff_return_characterization_witness :
    (minimax 0 boardEmpty XInt.negInf XInt.posInf true).1 =
      (XInt.fin (heuristic boardEmpty), -1) :=
  (minimax_cutoff_return_characterization.1 boardEmpty 0 XInt.negInf
    XInt.posInf true (by rfl)).mpr (Or.inl rfl)

/-- Counterexample to C1 as stated: on a full drawn board (no legal
moves) at depth 1, the `SOA_TTT.py` search does not return
`(heuristic(board), -1)` — its cutoff lacks the empty-move-list test,
`check_win(board, isX)` never fires, and the loop over zero moves
returns the initial `-inf` (for the maximizer) instead of the
heuristic. -/
theorem soa_moveless_cutoff_counterexample :
    generate_moves boardFullDraw = [] ∧
    (minimaxSOA 1 boardFullDraw XInt.negInf XInt.posInf true).1 =
      (XInt.negInf, -1) ∧
    decide ((XInt.negInf : XInt) = XInt.fin (heuristic boardFullDraw)) = false :=
  ⟨by decide, by decide, by decide⟩

/-- **C2 (amended).**  In the `tic_tac_toe.py`/`TTT_Client.py` variant,
whenever the candidate move list is non-empty and the depth is positive,
the returned move lies in `[0,8]` (never the `-1` sentinel) and the
returned utility is a finite integer.  In the `SOA_TTT.py` variant this
fails: the move can remain `-1` (see the counterexample). -/
theorem minimax_move_in_range :
    ∀ (board : Board) (depth : Nat) (alpha beta : XInt) (isX : Bool),
      board.length = 9 → depth ≠ 0 → generate_moves board ≠ [] →
      ∃ n : Int, ∃ mv : Nat,
        (minimax depth board alpha beta isX).1 = (XInt.fin n, Int.ofNat mv) ∧
        mv ≤ 8 := by
  intro board depth a b s _ hd hne
  obtain ⟨n, mv, h, hlt⟩ := minimax_good depth board a b s hd hne
  exact ⟨n, mv, h, by omega⟩

/-- Witness for C2 at depth 1 on the empty board. -/
theorem minimax_move_in_range_witness :
    ∃ n : Int, ∃ mv : Nat,
      (minimax 1 boardEmpty XInt.negInf XInt.posInf true).1 =
        (XInt.fin n, Int.ofNat mv) ∧ mv ≤ 8 :=
  minimax_move_in_range boardEmpty 1 XInt.negInf XInt.posInf true
    (by rfl) (by decide) (by decide)

/-- Counterexample to C2 as stated: on the quadruple-threat board the
`SOA_TTT.py` search at depth 3 with a non-empty move list returns the
`-1` sentinel (every reply lets `'o'` complete a line two plies later,
each such grandchild position returns `-inf`, and the strict `>`
comparison `-inf > -inf` never updates the best move). -/
theorem soa_move_sentinel_counterexample :
    generate_moves boardQuadThreat = [2, 5, 6, 7, 8] ∧
    (minimaxSOA 3 boardQuadThreat XInt.negInf XInt.posInf true).1 =
      (XInt.negInf, -1) :=
  ⟨by decide, by decide⟩

/-! ## Alpha-beta pruning returns the exhaustive search's result (C5) -/

theorem xmax_eq_right {a b : XInt} (h : xle a b = true) : xmax a b = b := by
  unfold xmax; split
  · rfl
  · next hf => exact xle_antisymm h (by simp [xle, Bool.of_not_eq_true hf])

theorem xmin_eq_right {a b : XInt} (h : xle b a = true) : xmin a b = b := by
  unfold xmin; split
  · rfl
  · next hf => exact xle_antisymm (by simp [xle, Bool.of_not_eq_true hf]) h

theorem xmax_cases (a b : XInt) : xmax a b = a ∨ xmax a b = b := by
  unfold xmax; split
  · exact Or.inr rfl
  · exact Or.inl rfl

theorem xmin_cases (a b : XInt) : xmin a b = a ∨ xmin a b = b := by
  unfold xmin; split
  · exact Or.inr rfl
  · exact Or.inl rfl

theorem xle_fin_posInf (n : Int) : xle XInt.posInf (XInt.fin n) = false := by
  simp [xle, xlt]

/-- Fail-soft bound relation between the value `U` returned by the
pruned search on window `(a, b)` and the value `T` of the exhaustive
search: `U` below the window is an upper bound on `T`, `U` above the
window is a lower bound on `T`, and inside the window they agree. -/
def ABPost (a b U T : XInt) : Prop :=
  (xle U a = true ∧ xle T U = true) ∨
  (xlt a U = true ∧ xlt U b = true ∧ U = T) ∨
  (xle b U = true ∧ xle U T = true)

theorem abPost_of_eq {a b U T : XInt} (h : U = T) : ABPost a b U T := by
  subst h
  by_cases h1 : xle U a = true
  · exact Or.inl ⟨h1, xle_refl U⟩
  · have h1' : xlt a U = true := by
      rw [xle_false_iff.mp (Bool.of_not_eq_true h1)]
    by_cases h2 : xlt U b = true
    · exact Or.inr (Or.inl ⟨h1', h2, rfl⟩)
    · refine Or.inr (Or.inr ⟨?_, xle_refl U⟩)
      simp [xle, Bool.of_not_eq_true h2]

theorem npLoop_max_ge (recur : Board → Bool → XInt × Int) (player : Cell) :
    ∀ (ms : List Nat) (board : Board) (u : XInt) (bm : Int),
      xle u (npLoop recur player true ms board u bm).1 = true := by
  intro ms
  induction ms with
  | nil => intro board u bm; exact xle_refl u
  | cons m rest ih =>
    intro board u bm
    simp only [npLoop, Bool.not_true]
    by_cases hcmp : xlt u (recur (board.set m player) false).1 = true
    · simp only [hcmp, if_true]
      exact xle_trans (xle_of_xlt hcmp) (ih _ _ _)
    · simp only [Bool.of_not_eq_true hcmp, Bool.false_eq_true, if_false]
      exact ih _ _ _

theorem npLoop_min_le (recur : Board → Bool → XInt × Int) (player : Cell) :
    ∀ (ms : List Nat) (board : Board) (u : XInt) (bm : Int),
      xle (npLoop recur player false ms board u bm).1 u = true := by
  intro ms
  induction ms with
  | nil => intro board u bm; exact xle_refl u
  | cons m rest ih =>
    intro board u bm
    simp only [npLoop, Bool.not_false, Bool.false_eq_true, if_false]
    by_cases hcmp : xlt (recur (board.set m player) true).1 u = true
    · simp only [hcmp, if_true]
      exact xle_trans (ih _ _ _) (xle_of_xlt hcmp)
    · simp only [Bool.of_not_eq_true hcmp, Bool.false_eq_true, if_false]
      exact ih _ _ _


theorem abLoopMax (d : Nat) (alpha0 beta0 : XInt) (hab : xlt alpha0 beta0 = true)
    (IH : ∀ (bd : Board) (a b : XInt) (s : Bool), xlt a b = true →
      ABPost a b (minimax d bd a b s).1.1 (minimaxNP d bd s).1) :
    ∀ (ms : List Nat) (board : Board) (u ustar : XInt) (bm bmstar : Int),
      (∀ m ∈ ms, board.getD m Cell.e = Cell.e) →
      xlt u beta0 = true →
      ((xle u alpha0 = true ∧ xle ustar u = true) ∨
       (xlt alpha0 u = true ∧ u = ustar)) →
      ABPost alpha0 beta0
        (mmLoop (fun bd a b s => minimax d bd a b s) Cell.x true ms board
          (xmax u alpha0) beta0 u bm).1.1
        (npLoop (fun bd s => minimaxNP d bd s) Cell.x true ms board ustar bmstar).1 := by
  intro ms
  induction ms with
  | nil =>
    intro board u ustar bm bmstar _ hub hrel
    rcases hrel with ⟨h1, h2⟩ | ⟨h1, h2⟩
    · exact Or.inl ⟨h1, h2⟩
    · exact Or.inr (Or.inl ⟨h1, hub, h2⟩)
  | cons m rest ih =>
    intro board u ustar bm bmstar hcells hub hrel
    have hb3 : (minimax d (board.set m Cell.x) (xmax u alpha0) beta0 false).2.set m
        Cell.e = board := by
      rw [minimax_board, List.set_set]
      exact set_getD_self board m (hcells m (by simp))
    have hcells' : ∀ m' ∈ rest, board.getD m' Cell.e = Cell.e :=
      fun m' h' => hcells m' (by simp [h'])
    have hab1 : xlt (xmax u alpha0) beta0 = true := xmax_xlt hub hab
    have hpost := IH (board.set m Cell.x) (xmax u alpha0) beta0 false hab1
    simp only [mmLoop, npLoop, Bool.not_true]
    rw [hb3]
    generalize hvdef : (minimax d (board.set m Cell.x) (xmax u alpha0) beta0
      false).1.1 = v at hpost ⊢
    generalize htdef : (minimaxNP d (board.set m Cell.x) false).1 = t at hpost ⊢
    by_cases hcmp : xlt u v = true
    · simp only [hcmp, if_true]
      rw [xmax_collapse (xle_of_xlt hcmp)]
      rcases hpost with ⟨hva, htv⟩ | ⟨hav, hvb, hveq⟩ | ⟨hbv, hvt⟩
      · -- child failed low: its value is at or below the window
        have hvalpha0 : xle v alpha0 = true := by
          rcases xmax_cases u alpha0 with hx | hx
          · rw [hx] at hva
            have h1 := xlt_of_xlt_of_xle hcmp hva
            rw [xlt_irrefl] at h1; cases h1
          · rwa [hx] at hva
        have hrel1 : xle u alpha0 = true ∧ xle ustar u = true := by
          rcases hrel with h | ⟨hau, _⟩
          · exact h
          · have h1 := xlt_of_xlt_of_xle (xlt_trans hau hcmp) hvalpha0
            rw [xlt_irrefl] at h1; cases h1
        have hnb : xle beta0 (xmax v alpha0) = false :=
          xle_false_iff.mpr (xmax_xlt (xlt_of_xle_of_xlt hvalpha0 hab) hab)
        rw [hnb]
        simp only [Bool.false_eq_true, if_false]
        refine ih board v _ _ _ hcells' (xlt_of_xle_of_xlt hvalpha0 hab)
          (Or.inl ⟨hvalpha0, ?_⟩)
        split
        · exact htv
        · exact xle_trans hrel1.2 (xle_of_xlt hcmp)
      · -- child value strictly inside the window: it equals the true value
        have hav0 : xlt alpha0 v = true :=
          xlt_of_xle_of_xlt (xle_right_xmax u alpha0) hav
        have hnb : xle beta0 (xmax v alpha0) = false :=
          xle_false_iff.mpr (xmax_xlt hvb hab)
        rw [hnb]
        simp only [Bool.false_eq_true, if_false]
        have hup : xlt ustar t = true := by
          rw [← hveq]
          rcases hrel with ⟨_, hsu⟩ | ⟨_, hequ⟩
          · exact xlt_of_xle_of_xlt hsu hcmp
          · rw [← hequ]; exact hcmp
        simp only [hup, if_true]
        rw [← hveq]
        exact ih board v v _ _ hcells' hvb (Or.inr ⟨hav0, rfl⟩)
      · -- child failed high: prune (break) and bound through monotonicity
        have hbr : xle beta0 (xmax v alpha0) = true :=
          xle_trans hbv (xle_left_xmax _ alpha0)
        rw [hbr]
        simp only [if_true]
        refine Or.inr (Or.inr ⟨hbv, ?_⟩)
        have htu2 : xle t (if xlt ustar t = true then t else ustar) = true := by
          split
          · exact xle_refl _
          · next h => simp [xle, Bool.of_not_eq_true h]
        exact xle_trans (xle_trans hvt htu2) (npLoop_max_ge _ _ _ _ _ _)
    · simp only [Bool.of_not_eq_true hcmp, Bool.false_eq_true, if_false]
      rw [xmax_collapse (xle_refl u)]
      have hnb : xle beta0 (xmax u alpha0) = false := xle_false_iff.mpr hab1
      rw [hnb]
      simp only [Bool.false_eq_true, if_false]
      have hvu : xle v u = true := by
        simp [xle, Bool.of_not_eq_true hcmp]
      have hfirst : xle v (xmax u alpha0) = true ∧ xle t v = true := by
        rcases hpost with h | ⟨hav, _, _⟩ | ⟨hbv, _⟩
        · exact h
        · have h1 := xlt_of_xlt_of_xle hav
            (xle_trans hvu (xle_left_xmax u alpha0))
          rw [xlt_irrefl] at h1; cases h1
        · have h1 := xlt_of_xle_of_xlt (xle_trans hbv hvu) hub
          rw [xlt_irrefl] at h1; cases h1
      rcases hrel with ⟨hua, hsu⟩ | ⟨hau, hequ⟩
      · refine ih board u _ bm _ hcells' hub (Or.inl ⟨hua, ?_⟩)
        split
        · exact xle_trans hfirst.2 hvu
        · exact hsu
      · have hupf : xlt ustar t = false := by
          by_contra hup
          have hup' := Bool.of_not_eq_false hup
          have h1 := xlt_of_xlt_of_xle (hequ ▸ hup')
            (xle_trans hfirst.2 hvu)
          rw [xlt_irrefl] at h1; cases h1
        simp only [hupf, Bool.false_eq_true, if_false]
        exact ih board u ustar bm bmstar hcells' hub (Or.inr ⟨hau, hequ⟩)

theorem abLoopMin (d : Nat) (alpha0 beta0 : XInt) (hab : xlt alpha0 beta0 = true)
    (IH : ∀ (bd : Board) (a b : XInt) (s : Bool), xlt a b = true →
      ABPost a b (minimax d bd a b s).1.1 (minimaxNP d bd s).1) :
    ∀ (ms : List Nat) (board : Board) (u ustar : XInt) (bm bmstar : Int),
      (∀ m ∈ ms, board.getD m Cell.e = Cell.e) →
      xlt alpha0 u = true →
      ((xle beta0 u = true ∧ xle u ustar = true) ∨
       (xlt u beta0 = true ∧ u = ustar)) →
      ABPost alpha0 beta0
        (mmLoop (fun bd a b s => minimax d bd a b s) Cell.o false ms board
          alpha0 (xmin u beta0) u bm).1.1
        (npLoop (fun bd s => minimaxNP d bd s) Cell.o false ms board ustar bmstar).1 := by
  intro ms
  induction ms with
  | nil =>
    intro board u ustar bm bmstar _ hau hrel
    rcases hrel with ⟨h1, h2⟩ | ⟨h1, h2⟩
    · exact Or.inr (Or.inr ⟨h1, h2⟩)
    · exact Or.inr (Or.inl ⟨hau, h1, h2⟩)
  | cons m rest ih =>
    intro board u ustar bm bmstar hcells hau hrel
    have hb3 : (minimax d (board.set m Cell.o) alpha0 (xmin u beta0) true).2.set m
        Cell.e = board := by
      rw [minimax_board, List.set_set]
      exact set_getD_self board m (hcells m (by simp))
    have hcells' : ∀ m' ∈ rest, board.getD m' Cell.e = Cell.e :=
      fun m' h' => hcells m' (by simp [h'])
    have hab1 : xlt alpha0 (xmin u beta0) = true := xlt_xmin hau hab
    have hpost := IH (board.set m Cell.o) alpha0 (xmin u beta0) true hab1
    simp only [mmLoop, npLoop, Bool.not_false, Bool.false_eq_true, if_false]
    rw [hb3]
    generalize hvdef : (minimax d (board.set m Cell.o) alpha0 (xmin u beta0)
      true).1.1 = v at hpost ⊢
    generalize htdef : (minimaxNP d (board.set m Cell.o) true).1 = t at hpost ⊢
    by_cases hcmp : xlt v u = true
    · simp only [hcmp, if_true]
      rw [xmin_collapse (xle_of_xlt hcmp)]
      rcases hpost with ⟨hva, htv⟩ | ⟨hav, hvb, hveq⟩ | ⟨hbv, hvt⟩
      · -- child failed low: prune (break) and bound through monotonicity
        have hbr : xle (xmin v beta0) alpha0 = true :=
          xle_trans (xmin_xle_left v beta0) hva
        rw [hbr]
        simp only [if_true]
        refine Or.inl ⟨hva, ?_⟩
        have htu2 : xle (if xlt t ustar = true then t else ustar) t = true := by
          split
          · exact xle_refl _
          · next h => simp [xle, Bool.of_not_eq_true h]
        exact xle_trans (xle_trans (npLoop_min_le _ _ _ _ _ _) htu2) htv
      · -- child value strictly inside the window: it equals the true value
        have hvb0 : xlt v beta0 = true :=
          xlt_of_xlt_of_xle hvb (xmin_xle_right u beta0)
        have hnb : xle (xmin v beta0) alpha0 = false :=
          xle_false_iff.mpr (xlt_xmin hav hab)
        rw [hnb]
        simp only [Bool.false_eq_true, if_false]
        have hup : xlt t ustar = true := by
          rw [← hveq]
          rcases hrel with ⟨_, hus⟩ | ⟨_, hequ⟩
          · exact xlt_of_xlt_of_xle hcmp hus
          · rw [← hequ]; exact hcmp
        simp only [hup, if_true]
        rw [← hveq]
        exact ih board v v _ _ hcells' hav (Or.inr ⟨hvb0, rfl⟩)
      · -- child failed high: its value is at or above the window
        have hbeta0v : xle beta0 v = true := by
          rcases xmin_cases u beta0 with hx | hx
          · rw [hx] at hbv
            have h1 := xlt_of_xle_of_xlt hbv hcmp
            rw [xlt_irrefl] at h1; cases h1
          · rwa [hx] at hbv
        have hrel1 : xle beta0 u = true ∧ xle u ustar = true := by
          rcases hrel with h | ⟨hub0, _⟩
          · exact h
          · have h1 := xlt_of_xle_of_xlt hbeta0v (xlt_trans hcmp hub0)
            rw [xlt_irrefl] at h1; cases h1
        have hav0 : xlt alpha0 v = true := xlt_of_xlt_of_xle hab hbeta0v
        have hnb : xle (xmin v beta0) alpha0 = false :=
          xle_false_iff.mpr (xlt_xmin hav0 hab)
        rw [hnb]
        simp only [Bool.false_eq_true, if_false]
        refine ih board v _ _ _ hcells' hav0 (Or.inl ⟨hbeta0v, ?_⟩)
        split
        · exact hvt
        · exact xle_trans (xle_of_xlt hcmp) hrel1.2
    · simp only [Bool.of_not_eq_true hcmp, Bool.false_eq_true, if_false]
      rw [xmin_collapse (xle_refl u)]
      have hnb : xle (xmin u beta0) alpha0 = false := xle_false_iff.mpr hab1
      rw [hnb]
      simp only [Bool.false_eq_true, if_false]
      have huv : xle u v = true := by
        simp [xle, Bool.of_not_eq_true hcmp]
      have hfirst : xle (xmin u beta0) v = true ∧ xle v t = true := by
        rcases hpost with ⟨hva, _⟩ | ⟨_, hvb, _⟩ | h
        · have h1 := xlt_of_xlt_of_xle (xlt_of_xlt_of_xle hau huv) hva
          rw [xlt_irrefl] at h1; cases h1
        · have h1 := xlt_of_xlt_of_xle hvb
            (xle_trans (xmin_xle_left u beta0) huv)
          rw [xlt_irrefl] at h1; cases h1
        · exact h
      rcases hrel with ⟨hbu, hus⟩ | ⟨hub0, hequ⟩
      · refine ih board u _ bm _ hcells' hau (Or.inl ⟨hbu, ?_⟩)
        split
        · exact xle_trans huv hfirst.2
        · exact hus
      · have hupf : xlt t ustar = false := by
          by_contra hup
          have hup' := Bool.of_not_eq_false hup
          have hup2 : xlt t u = true := by rw [hequ]; exact hup'
          have h1 := xlt_of_xlt_of_xle hup2 (xle_trans huv hfirst.2)
          rw [xlt_irrefl] at h1; cases h1
        simp only [hupf, Bool.false_eq_true, if_false]
        exact ih board u ustar bm bmstar hcells' hau (Or.inr ⟨hub0, hequ⟩)

/-- Fail-soft correctness of the alpha-beta window: on any window
`(a, b)` with `a < b`, the pruned search's value stands in the `ABPost`
bound relation to the exhaustive search's value. -/
theorem abValue : ∀ (d : Nat) (bd : Board) (a b : XInt) (s : Bool),
    xlt a b = true → ABPost a b (minimax d bd a b s).1.1 (minimaxNP d bd s).1 := by
  intro d
  induction d with
  | zero => intro bd a b s _; exact abPost_of_eq rfl
  | succ d ih =>
    intro bd a b s hab
    simp only [minimax, minimaxNP]
    by_cases hc : (generate_moves bd = [] ∨ check_win bd (PyVal.b s) = true)
    · rw [if_pos hc, if_pos hc]
      exact abPost_of_eq rfl
    · rw [if_neg hc, if_neg hc]
      cases s with
      | true =>
        simp only [eq_self_iff_true, if_true]
        have hub : xlt XInt.negInf b = true := negInf_xlt (ne_negInf_of_xlt hab)
        have h := abLoopMax d a b hab ih (generate_moves bd) bd XInt.negInf
          XInt.negInf (-1) (-1) (fun m hm => moves_cell_empty hm) hub
          (Or.inl ⟨xle_negInf a, xle_refl XInt.negInf⟩)
        rw [xmax_negInf] at h
        exact h
      | false =>
        simp only [Bool.false_eq_true, if_false]
        have hau : xlt a XInt.posInf = true := xlt_posInf (ne_posInf_of_xlt hab)
        have h := abLoopMin d a b hab ih (generate_moves bd) bd XInt.posInf
          XInt.posInf (-1) (-1) (fun m hm => moves_cell_empty hm) hau
          (Or.inl ⟨xle_posInf b, xle_refl XInt.posInf⟩)
        rw [xmin_posInf] at h
        exact h

/-- At the root window `(current best, +inf)` the pruned maximizer loop
and the exhaustive maximizer loop agree exactly, move included. -/
theorem abRootMax (d : Nat) :
    ∀ (ms : List Nat) (board : Board) (u : XInt) (bm : Int),
      (∀ m ∈ ms, board.getD m Cell.e = Cell.e) →
      u ≠ XInt.posInf →
      (mmLoop (fun bd a b s => minimax d bd a b s) Cell.x true ms board u
        XInt.posInf u bm).1 =
      npLoop (fun bd s => minimaxNP d bd s) Cell.x true ms board u bm := by
  intro ms
  induction ms with
  | nil => intro board u bm _ _; rfl
  | cons m rest ih =>
    intro board u bm hcells hup
    have hb3 : (minimax d (board.set m Cell.x) u XInt.posInf false).2.set m
        Cell.e = board := by
      rw [minimax_board, List.set_set]
      exact set_getD_self board m (hcells m (by simp))
    have hcells' : ∀ m' ∈ rest, board.getD m' Cell.e = Cell.e :=
      fun m' h' => hcells m' (by simp [h'])
    obtain ⟨n, hn⟩ := minimax_fin d (board.set m Cell.x) u XInt.posInf false
    have hpost := abValue d (board.set m Cell.x) u XInt.posInf false
      (xlt_posInf hup)
    simp only [mmLoop, npLoop, Bool.not_true]
    rw [hb3]
    generalize hvdef : (minimax d (board.set m Cell.x) u XInt.posInf
      false).1.1 = v at hpost hn ⊢
    generalize htdef : (minimaxNP d (board.set m Cell.x) false).1 = t at hpost ⊢
    by_cases hcmp : xlt u v = true
    · have hveq : v = t := by
        rcases hpost with ⟨hva, _⟩ | ⟨_, _, h⟩ | ⟨hbv, _⟩
        · have h1 := xlt_of_xlt_of_xle hcmp hva
          rw [xlt_irrefl] at h1; cases h1
        · exact h
        · rw [hn, xle_fin_posInf] at hbv; cases hbv
      rw [← hveq]
      simp only [hcmp, if_true]
      rw [xmax_eq_left (xle_of_xlt hcmp)]
      have hnb : xle XInt.posInf v = false := by
        rw [hn]; exact xle_fin_posInf n
      rw [hnb]
      simp only [Bool.false_eq_true, if_false]
      exact ih board v (Int.ofNat m) hcells' (by rw [hn]; simp)
    · have htu : xle t u = true := by
        rcases hpost with ⟨hva, htv⟩ | ⟨hav, _, _⟩ | ⟨hbv, _⟩
        · exact xle_trans htv hva
        · exact absurd hav hcmp
        · rw [hn, xle_fin_posInf] at hbv; cases hbv
      have hupf : xlt u t = false := by
        by_contra h
        have h' := Bool.of_not_eq_false h
        have h1 := xlt_of_xlt_of_xle h' htu
        rw [xlt_irrefl] at h1; cases h1
      simp only [Bool.of_not_eq_true hcmp, hupf, Bool.false_eq_true, if_false]
      rw [xmax_self]
      have hnb : xle XInt.posInf u = false := by
        simp [xle, xlt_posInf hup]
      rw [hnb]
      simp only [Bool.false_eq_true, if_false]
      exact ih board u bm hcells' hup

/-- At the root window `(-inf, current best)` the pruned minimizer loop
and the exhaustive minimizer loop agree exactly, move included. -/
theorem abRootMin (d : Nat) :
    ∀ (ms : List Nat) (board : Board) (u : XInt) (bm : Int),
      (∀ m ∈ ms, board.getD m Cell.e = Cell.e) →
      u ≠ XInt.negInf →
      (mmLoop (fun bd a b s => minimax d bd a b s) Cell.o false ms board
        XInt.negInf u u bm).1 =
      npLoop (fun bd s => minimaxNP d bd s) Cell.o false ms board u bm := by
  intro ms
  induction ms with
  | nil => intro board u bm _ _; rfl
  | cons m rest ih =>
    intro board u bm hcells hup
    have hb3 : (minimax d (board.set m Cell.o) XInt.negInf u true).2.set m
        Cell.e = board := by
      rw [minimax_board, List.set_set]
      exact set_getD_self board m (hcells m (by simp))
    have hcells' : ∀ m' ∈ rest, board.getD m' Cell.e = Cell.e :=
      fun m' h' => hcells m' (by simp [h'])
    obtain ⟨n, hn⟩ := minimax_fin d (board.set m Cell.o) XInt.negInf u true
    have hpost := abValue d (board.set m Cell.o) XInt.negInf u true
      (negInf_xlt hup)
    simp only [mmLoop, npLoop, Bool.not_false, Bool.false_eq_true, if_false]
    rw [hb3]
    generalize hvdef : (minimax d (board.set m Cell.o) XInt.negInf u
      true).1.1 = v at hpost hn ⊢
    generalize htdef : (minimaxNP d (board.set m Cell.o) true).1 = t at hpost ⊢
    have hvn : xle v XInt.negInf = false := by
      rw [hn]; simp [xle, xlt]
    by_cases hcmp : xlt v u = true
    · have hveq : v = t := by
        rcases hpost with ⟨hva, _⟩ | ⟨_, _, h⟩ | ⟨hbv, _⟩
        · rw [hvn] at hva; cases hva
        · exact h
        · have h1 := xlt_of_xle_of_xlt hbv hcmp
          rw [xlt_irrefl] at h1; cases h1
      rw [← hveq]
      simp only [hcmp, if_true]
      rw [xmin_eq_left (xle_of_xlt hcmp)]
      rw [hvn]
      simp only [Bool.false_eq_true, if_false]
      exact ih board v (Int.ofNat m) hcells' (by rw [hn]; simp)
    · have hut : xle u t = true := by
        rcases hpost with ⟨hva, _⟩ | ⟨_, hvb, _⟩ | ⟨hbv, hvt⟩
        · rw [hvn] at hva; cases hva
        · exact absurd hvb hcmp
        · exact xle_trans hbv hvt
      have hupf : xlt t u = false := by
        by_contra h
        have h' := Bool.of_not_eq_false h
        have h1 := xlt_of_xle_of_xlt hut h'
        rw [xlt_irrefl] at h1; cases h1
      simp only [Bool.of_not_eq_true hcmp, hupf, Bool.false_eq_true, if_false]
      rw [xmin_self]
      have hnb : xle u XInt.negInf = false := by
        simp [xle, negInf_xlt hup]
      rw [hnb]
      simp only [Bool.false_eq_true, if_false]
      exact ih board u bm hcells' hup

/-- **C5.**  For every board, depth and side, the alpha-beta-pruned
search started with `alpha = -inf`, `beta = +inf` returns the identical
`(utility, move)` pair as the exhaustive search with pruning disabled
(`minimaxNP`): pruning changes only the work done, never the result. -/
theorem alpha_beta_equals_exhaustive :
    ∀ (board : Board) (depth : Nat) (isX : Bool), board.length = 9 →
      (minimax depth board XInt.negInf XInt.posInf isX).1 =
        minimaxNP depth board isX := by
  intro board depth isX _
  cases depth with
  | zero => rfl
  | succ d =>
    simp only [minimax, minimaxNP]
    by_cases hc : (generate_moves board = [] ∨
        check_win board (PyVal.b isX) = true)
    · rw [if_pos hc, if_pos hc]
    · rw [if_neg hc, if_neg hc]
      cases isX with
      | true =>
        simp only [eq_self_iff_true, if_true]
        exact abRootMax d (generate_moves board) board XInt.negInf (-1)
          (fun m hm => moves_cell_empty hm) (by simp)
      | false =>
        simp only [Bool.false_eq_true, if_false]
        exact abRootMin d (generate_moves board) board XInt.posInf (-1)
          (fun m hm => moves_cell_empty hm) (by simp)

/-- Witness for C5 on a concrete midgame board at depth 2. -/
theorem alpha_beta_equals_exhaustive_witness :
    (minimax 2 boardTwoLeft XInt.negInf XInt.posInf true).1 =
      minimaxNP 2 boardTwoLeft true :=
  alpha_beta_equals_exhaustive boardTwoLeft 2 true (by rfl)

/-- Counterexample to C7's universal client-move sentence: the
9-character line `"Client123"` contains `"Client"` but matches the
earlier board-snapshot rule first (9 characters, no `"Tie"`), so it is
classified as a board snapshot, not as a request for a client move. -/
theorem classify_client_line_precedence_counterexample :
    subStrIn "Client".toList "Client123".toList = true ∧
    classify "Client123" =
      ProtocolEvent.boardSnapshot ['c', 'l', 'i', 'e', 'n', 't', 'e', 'e', 'e'] ∧
    decide (classify "Client123" = ProtocolEvent.requestClientMove) = false :=
  ⟨by decide, by decide, by decide⟩
